import Mathlib

/-!
Verification of the vibeout video-metadata service.

Shallow embedding of `src/server/main.py` (FastAPI resource API over the
`videos` table) and `src/server/quip_download.py` (ingestion sync that
upserts feed records into the same table).

Modelling conventions:
* The `videos` table is a `List Row`; the relational engine's ordering of
  rows is the list order (inserts append, as MariaDB does for this workload).
* `DateTime` values are `Nat` timestamps.  Each request handler receives the
  current time `now` as a parameter (the code calls `datetime.utcnow()`
  once per mutation; SQLAlchemy's column-level `default=`/`onupdate=`
  hooks fire at flush time with the same clock).
* Machine strings are Lean `String`s; MySQL `LOWER` is modelled by
  `lowerStr`, character-wise ASCII case folding.
* The ingestion `INSERT ... ON DUPLICATE KEY UPDATE` statement names ten
  columns and omits `created_at` / `updated_at`; on the insert path the
  engine's default supplies those two columns, modelled by the parameter
  `t0` of `applyRec`.  A record whose payload would put SQL `NULL` into a
  `NOT NULL` column (`id`, `url`, `name`, `title`, `views`) fails with a
  constraint error, is logged and skipped (`recValid`).
-/

/-- One row of the `videos` table (SQLAlchemy model `Video` in
`src/server/main.py`): `id` is the primary key; `url`, `name`, `title` and
`views` are `NOT NULL`; `image`, `video`, `user`, `poster`, `script` are
nullable; `views` defaults to 0; both timestamps default to now and
`updated_at` additionally has `onupdate=datetime.utcnow`. -/
structure Row where
  id : String
  url : String
  name : String
  title : String
  image : Option String
  video : Option String
  user : Option String
  poster : Option String
  script : Option String
  views : Int
  created_at : Nat
  updated_at : Nat
deriving DecidableEq, Repr

/-- Replace the first row whose `id` matches `vid` (SQLAlchemy
`query.filter(Video.id == vid).first()` followed by attribute mutation and
commit touches exactly that row). -/
def replaceFirst (s : List Row) (vid : String) (f : Row → Row) : List Row :=
  match s with
  | [] => []
  | r :: rs => if r.id == vid then f r :: rs else r :: replaceFirst rs vid f

/-- Does some row of the store carry this id. -/
def hasId (s : List Row) (vid : String) : Bool :=
  s.any (fun r => r.id == vid)

/-- Request body of `POST /videos` (`VideoCreate`): `url`, `name`, `title`
required, the five other columns optional and defaulting to absent. -/
structure VideoCreate where
  url : String
  name : String
  title : String
  image : Option String := none
  video : Option String := none
  user : Option String := none
  poster : Option String := none
  script : Option String := none
deriving DecidableEq, Repr

/-- Request body of `PUT /videos/{id}` (`VideoUpdate`).  Every field is
optional; the outer `Option` records whether the key was supplied at all
(pydantic's `__fields_set__`, consulted by `dict(exclude_unset=True)`),
the inner `Option String` is the supplied value, which may be JSON null. -/
structure VideoUpdate where
  url : Option (Option String) := none
  name : Option (Option String) := none
  title : Option (Option String) := none
  image : Option (Option String) := none
  video : Option (Option String) := none
  user : Option (Option String) := none
  poster : Option (Option String) := none
  script : Option (Option String) := none
deriving DecidableEq, Repr

/-- The `empty_to_none` pydantic validator of `VideoUpdate`: a supplied
string value with `v.strip() == ""` — that is, one all of whose
characters are whitespace, in particular the empty string — becomes
`None`.  Supplying a key never un-supplies it: the validator rewrites the
value only. -/
def empty_to_none (v : Option String) : Option String :=
  match v with
  | some s => if s.data.all Char.isWhitespace then none else some s
  | none => none

/-- Validator applied to every supplied field of a `VideoUpdate`. -/
def normalizeUpdate (p : VideoUpdate) : VideoUpdate :=
  { url := p.url.map empty_to_none
    name := p.name.map empty_to_none
    title := p.title.map empty_to_none
    image := p.image.map empty_to_none
    video := p.video.map empty_to_none
    user := p.user.map empty_to_none
    poster := p.poster.map empty_to_none
    script := p.script.map empty_to_none }

/-- Test of `payload.dict(exclude_unset=True)` being empty: no key of the
update body was supplied at all. -/
def updateIsEmpty (p : VideoUpdate) : Bool :=
  p.url.isNone && p.name.isNone && p.title.isNone && p.image.isNone &&
  p.video.isNone && p.user.isNone && p.poster.isNone && p.script.isNone

/-- Paginated response body `{total, page, page_size, total_pages, videos}`. -/
structure PaginatedResponse where
  total : Nat
  page : Nat
  page_size : Nat
  total_pages : Nat
  videos : List Row
deriving DecidableEq, Repr

/-- Shared pagination arithmetic of `list_videos` and `search_videos`:
`offset = (page - 1) * page_size`, `total_pages = (total + page_size - 1)
// page_size`, slice via SQL `OFFSET`/`LIMIT`. -/
def paginate (page page_size : Nat) (rows : List Row) : PaginatedResponse :=
  let total := rows.length
  let offset := (page - 1) * page_size
  let total_pages := (total + page_size - 1) / page_size
  { total := total
    page := page
    page_size := page_size
    total_pages := total_pages
    videos := (rows.drop offset).take page_size }

/-- The validated `sort_by` query parameter (regex
`^(views|title|created_at)$`; absent allowed). -/
inductive SortKey
  | views
  | title
  | created_at
deriving DecidableEq, Repr

/-- The `ORDER BY` clause chosen by `list_videos`: `views DESC`, or
`title ASC`, or (default, also for explicit `created_at`) `created_at
DESC`.  The SQL sort is modelled by insertion sort with the corresponding
total preorder. -/
def sortRows (k : Option SortKey) (s : List Row) : List Row :=
  match k with
  | some SortKey.views => List.insertionSort (fun a b => b.views ≤ a.views) s
  | some SortKey.title => List.insertionSort (fun a b => a.title ≤ b.title) s
  | _ => List.insertionSort (fun a b => b.created_at ≤ a.created_at) s

/-- Handler `GET /videos` (`list_videos`): counts all rows, sorts, then
applies offset/limit.  Pure read: the store is returned unchanged. -/
def list_videos (page page_size : Nat) (sort_by : Option SortKey)
    (s : List Row) : PaginatedResponse × List Row :=
  (paginate page page_size (sortRows sort_by s), s)

/-- Handler `GET /videos/{id}` (`get_video`): 404 when no row has the id;
otherwise increments `views` by one and commits.  The commit issues an
`UPDATE`, so the column-level `onupdate=datetime.utcnow` hook also
refreshes `updated_at`. -/
def get_video (now : Nat) (vid : String) (s : List Row) :
    Except Nat Row × List Row :=
  match s.find? (fun r => r.id == vid) with
  | none => (Except.error 404, s)
  | some row =>
    let row' := { row with views := row.views + 1, updated_at := now }
    (Except.ok row', replaceFirst s vid (fun _ => row'))

/-- Handler `POST /videos` (`create_video`): builds a row with a freshly
generated id, `views` defaulting to 0 and both timestamps defaulting to
now, and appends it to the table. -/
def create_video (now : Nat) (newId : String) (p : VideoCreate)
    (s : List Row) : Row × List Row :=
  let row : Row :=
    { id := newId
      url := p.url
      name := p.name
      title := p.title
      image := p.image
      video := p.video
      user := p.user
      poster := p.poster
      script := p.script
      views := 0
      created_at := now
      updated_at := now }
  (row, s ++ [row])

/-- HTTP status declared on the create route. -/
def create_status : Nat := 201

/-- Handler `PUT /videos/{id}` (`update_video`): 400 when
`dict(exclude_unset=True)` is empty, then 404 when the id is absent,
otherwise `setattr`s every supplied (normalized) value, sets `updated_at`
to now and commits.  Writing SQL `NULL` into one of the `NOT NULL`
columns `url`, `name`, `title` makes the commit fail with a constraint
error (500) and nothing is persisted. -/
def update_video (now : Nat) (vid : String) (p : VideoUpdate)
    (s : List Row) : Except Nat Row × List Row :=
  if updateIsEmpty p then (Except.error 400, s)
  else
    match s.find? (fun r => r.id == vid) with
    | none => (Except.error 404, s)
    | some row =>
      let n := normalizeUpdate p
      match n.url.getD (some row.url), n.name.getD (some row.name),
            n.title.getD (some row.title) with
      | some u, some nm, some t =>
        let row' : Row :=
          { row with
            url := u
            name := nm
            title := t
            image := n.image.getD row.image
            video := n.video.getD row.video
            user := n.user.getD row.user
            poster := n.poster.getD row.poster
            script := n.script.getD row.script
            updated_at := now }
        (Except.ok row', replaceFirst s vid (fun _ => row'))
      | _, _, _ => (Except.error 500, s)

/-- Handler `DELETE /videos/{id}` (`delete_video`): 404 when the id is
absent, otherwise removes that row. -/
def delete_video (vid : String) (s : List Row) :
    Except Nat Unit × List Row :=
  match s.find? (fun r => r.id == vid) with
  | none => (Except.error 404, s)
  | some _ => (Except.ok (), s.eraseP (fun r => r.id == vid))

/-- MySQL `LIKE` matching over char lists (pattern, text): `'%'` matches
any sequence — a pattern `'%' :: p` matches `t` exactly when `p` matches
some suffix of `t` — `'_'` matches any single character, any other
pattern character matches itself.  Escape sequences are not modelled; the
theorems below only instantiate patterns built from wildcard-free query
strings plus the two `'%'` the code wraps around them. -/
def likeMatch : List Char → List Char → Bool
  | [], t => t.isEmpty
  | c :: p', t =>
    if c == '%' then
      t.tails.any (fun suf => likeMatch p' suf)
    else
      match t with
      | [] => false
      | d :: t2 => (if c == '_' then true else c == d) && likeMatch p' t2

/-- MySQL `LOWER`: character-wise ASCII case folding (what
`String.toLower` also computes). -/
def lowerStr (s : String) : String :=
  String.mk (s.data.map Char.toLower)

/-- The test SQLAlchemy's `col.ilike(f"%{q}%")` compiles to on MySQL:
case-fold both sides and run `LIKE` with the query wrapped in `'%'`. -/
def likeTest (q text : String) : Bool :=
  likeMatch ('%' :: ((lowerStr q).data ++ ['%'])) (lowerStr text).data

/-- Case-insensitive substring containment, the spec's notion of a search
match: the lower-cased query occurs as a contiguous sublist of the
lower-cased text. -/
def containsSub (q t : List Char) : Bool :=
  t.tails.any (fun suf => q.isPrefixOf suf)

/-- Case-insensitive substring test on strings. -/
def ciSubstr (q text : String) : Bool :=
  containsSub (lowerStr q).data (lowerStr text).data

/-- The search filter of `search_videos`: `title ILIKE p OR name ILIKE p
OR script ILIKE p`; a SQL `NULL` `script` makes its disjunct `NULL`
(not a match). -/
def rowMatches (q : String) (r : Row) : Bool :=
  likeTest q r.title || likeTest q r.name ||
    (match r.script with
     | some sc => likeTest q sc
     | none => false)

/-- Handler `GET /videos/search` (`search_videos`): 422 when `q` fails the
`min_length=1` validation; otherwise filters, counts the filtered set,
orders by `views DESC` and applies offset/limit.  Pure read. -/
def search_videos (q : String) (page page_size : Nat) (s : List Row) :
    Except Nat PaginatedResponse × List Row :=
  if q.isEmpty then (Except.error 422, s)
  else
    (Except.ok (paginate page page_size
      (List.insertionSort (fun a b => b.views ≤ a.views)
        (s.filter (rowMatches q)))), s)

/-- Hex digit characters used by Python's `uuid.UUID.hex`. -/
def hexChar (n : Nat) : Char :=
  if n < 10 then Char.ofNat (48 + n) else Char.ofNat (87 + n)

/-- Two lowercase hex digits of one byte. -/
def byteHex (b : Nat) : List Char :=
  [hexChar (b / 16), hexChar (b % 16)]

/-- The byte surgery of `uuid.uuid4()` on 16 random bytes: byte 6 keeps
its low nibble and gets version `4`, byte 8 keeps its low six bits and
gets the IETF variant. -/
def uuid4bytes : List Nat → List Nat
  | [b0, b1, b2, b3, b4, b5, b6, b7, b8, b9, b10, b11, b12, b13, b14, b15] =>
    [b0, b1, b2, b3, b4, b5, 64 + b6 % 16, b7, 128 + b8 % 64, b9, b10,
     b11, b12, b13, b14, b15]
  | l => l

/-- `uuid.uuid4().hex` as a function of the 16 random bytes drawn by the
generator: the 32 lowercase hex digits of the version-stamped bytes. -/
def uuid4hex (bytes : List Nat) : String :=
  String.mk (((uuid4bytes bytes).map byteHex).flatten)

/-- Lowercase-hex alphabet membership. -/
def isHexDigit (c : Char) : Bool :=
  (48 ≤ c.toNat && c.toNat ≤ 57) || (97 ≤ c.toNat && c.toNat ≤ 102)

/-- One record of the ingestion feed (`src/server/quip_download.py`): the
payload dict built by `video.get(...)` per column, each key possibly
absent (`None`). -/
structure FeedRec where
  id : Option String
  url : Option String
  name : Option String
  title : Option String
  image : Option String
  video : Option String
  user : Option String
  poster : Option String
  script : Option String
  views : Option Int
deriving DecidableEq, Repr

/-- A record the engine accepts: none of the `NOT NULL` columns named by
the `INSERT` receives SQL `NULL`.  A record failing this is the
`mysql.connector.Error` case: logged, skipped, loop continues. -/
def recValid (r : FeedRec) : Bool :=
  r.id.isSome && r.url.isSome && r.name.isSome && r.title.isSome &&
    r.views.isSome

/-- The `ON DUPLICATE KEY UPDATE` arm: overwrite the nine non-key columns
with the incoming values, touching neither `id` nor the two timestamp
columns (the statement does not mention them, and the SQLAlchemy
`onupdate` hook lives in the API process, not in this script). -/
def updRowP (u nm t : String) (v : Int) (r : FeedRec) (row : Row) : Row :=
  { row with
    url := u
    name := nm
    title := t
    image := r.image
    video := r.video
    user := r.user
    views := v
    poster := r.poster
    script := r.script }

/-- The insert arm: a fresh row from the ten inserted columns; the two
timestamp columns are filled by the engine's default, modelled by `t0`. -/
def insRow (t0 : Nat) (i u nm t : String) (v : Int) (r : FeedRec) : Row :=
  { id := i
    url := u
    name := nm
    title := t
    image := r.image
    video := r.video
    user := r.user
    poster := r.poster
    script := r.script
    views := v
    created_at := t0
    updated_at := t0 }

/-- One `cursor.execute` of the upsert statement for one feed record:
invalid records fail and leave the table alone; otherwise insert-or-
overwrite keyed on `id`. -/
def applyRec (t0 : Nat) (s : List Row) (r : FeedRec) : List Row :=
  match r.id, r.url, r.name, r.title, r.views with
  | some i, some u, some nm, some t, some v =>
    if hasId s i then replaceFirst s i (updRowP u nm t v r)
    else s ++ [insRow t0 i u nm t v r]
  | _, _, _, _, _ => s

/-- The per-record loop of `upsert_videos`: left fold of the upsert step
over the feed, records processed in order, failures skipped. -/
def runUpsert (t0 : Nat) (s : List Row) (feed : List FeedRec) : List Row :=
  feed.foldl (applyRec t0) s

/-- Whole `upsert_videos` call including the single trailing commit:
on commit success the folded state is persisted and the process reports
success (exit 0); when the commit itself fails everything is rolled back
(the store keeps its prior contents) and the process exits with 1. -/
def upsert_videos (t0 : Nat) (commitOk : Bool) (s : List Row)
    (feed : List FeedRec) : List Row × Nat :=
  if commitOk then (runUpsert t0 s feed, 0) else (s, 1)

/-- A stored row with a non-null `script`, used as concrete store content. -/
def rowA : Row :=
  { id := "a", url := "u", name := "n", title := "t", image := none,
    video := none, user := none, poster := none, script := some "keep",
    views := 3, created_at := 1, updated_at := 1 }

/-- An update payload that supplies exactly one key, `script`, with the
empty string as its value. -/
def updEmptyScript : VideoUpdate := { script := some (some "") }

/-- Iterated detail fetches: fold `get_video` over a list of request
times, keeping only the evolving store. -/
def getCalls (nows : List Nat) (vid : String) (s : List Row) : List Row :=
  nows.foldl (fun st n => (get_video n vid st).2) s

/-- A stored row with zero views and both timestamps 0. -/
def rowB : Row :=
  { id := "b", url := "u", name := "n", title := "t", image := none,
    video := none, user := none, poster := none, script := none,
    views := 0, created_at := 0, updated_at := 0 }

/-- The spec's matching predicate: one of `title`, `name`, `script`
contains the query as a case-insensitive substring (a NULL `script` never
matches). -/
def ciRowMatches (q : String) (r : Row) : Bool :=
  ciSubstr q r.title || ciSubstr q r.name ||
    (match r.script with
     | some sc => ciSubstr q sc
     | none => false)

/-- The row a successful `update_video` writes: supplied (normalized)
values over the found row, `updated_at := now`. -/
def appliedUpdate (now : Nat) (p : VideoUpdate) (row : Row)
    (u nm t : String) : Row :=
  { row with
    url := u
    name := nm
    title := t
    image := (normalizeUpdate p).image.getD row.image
    video := (normalizeUpdate p).video.getD row.video
    user := (normalizeUpdate p).user.getD row.user
    poster := (normalizeUpdate p).poster.getD row.poster
    script := (normalizeUpdate p).script.getD row.script
    updated_at := now }

/-- A minimal valid create payload. -/
def pcA : VideoCreate := { url := "u", name := "n", title := "t" }

/-- Feed record carrying the same id as `rowA` with fresh column values. -/
def recA : FeedRec :=
  { id := some "a", url := some "u2", name := some "n2", title := some "t2",
    image := none, video := none, user := none, poster := none,
    script := none, views := some 0 }

/-- A feed record whose upsert fails: every column `None`, so the insert
would put SQL `NULL` into the `NOT NULL` primary key. -/
def recBad : FeedRec :=
  { id := none, url := none, name := none, title := none, image := none,
    video := none, user := none, poster := none, script := none,
    views := none }

/-- The spec's data-model invariants: `id` is unique across rows,
`views >= 0`, and `created_at <= updated_at` in every row. -/
def StoreInv (s : List Row) : Prop :=
  (s.map Row.id).Nodup ∧ ∀ r ∈ s, 0 ≤ r.views ∧ r.created_at ≤ r.updated_at

instance (s : List Row) : Decidable (StoreInv s) :=
  inferInstanceAs (Decidable (_ ∧ _))

/-- C7 counterexample: a feed record carrying `views = -1`. -/
def recNeg : FeedRec :=
  { id := some "neg", url := some "u", name := some "n", title := some "t",
    image := none, video := none, user := none, poster := none,
    script := none, views := some (-1) }

/-- The pure update arm of the upsert: what `applyRec` does once the id is
known to be present.  It never inserts (on an absent id `replaceFirst` is
the identity) and does not depend on the engine's insert-time default. -/
def applyUpd (s : List Row) (r : FeedRec) : List Row :=
  match r.id, r.url, r.name, r.title, r.views with
  | some i, some u, some nm, some t, some v =>
    replaceFirst s i (updRowP u nm t v r)
  | _, _, _, _, _ => s

/-- Two table states that can differ only in the non-key columns of the
first row carrying id `i`: same prefix of non-`i` rows, a row with id `i`
and equal timestamps on both sides, same tail. -/
def AgreeExc (i : String) (s s' : List Row) : Prop :=
  s = s' ∨ ∃ pre w w' post, s = pre ++ w :: post ∧ s' = pre ++ w' :: post ∧
    (∀ x ∈ pre, ¬ x.id = i) ∧ w.id = i ∧ w'.id = i ∧
    w.created_at = w'.created_at ∧ w.updated_at = w'.updated_at

/-! ### Theorems -/

/-! ### Shared store lemmas -/

theorem hasId_eq_isSome (s : List Row) (i : String) :
    hasId s i = (s.find? (fun r => r.id == i)).isSome := by
  induction s with
  | nil => rfl
  | cons r rs ih =>
    cases hr : (r.id == i) <;>
      simp [hasId, List.any_cons, List.find?_cons, hr, ← ih]

theorem replaceFirst_of_find?_none {s : List Row} {vid : String}
    (f : Row → Row) (h : s.find? (fun r => r.id == vid) = none) :
    replaceFirst s vid f = s := by
  induction s with
  | nil => rfl
  | cons r rs ih =>
    cases hr : (r.id == vid) with
    | false =>
      simp only [List.find?_cons, hr] at h
      simp [replaceFirst, hr, ih h]
    | true =>
      simp only [List.find?_cons, hr] at h
      exact absurd h (by simp)

theorem find?_replaceFirst_self {s : List Row} {vid : String} {w : Row}
    (f : Row → Row) (h : s.find? (fun r => r.id == vid) = some w)
    (hid : (f w).id = w.id) :
    (replaceFirst s vid f).find? (fun r => r.id == vid) = some (f w) := by
  induction s with
  | nil => simp [List.find?] at h
  | cons r rs ih =>
    cases hr : (r.id == vid) with
    | true =>
      simp only [List.find?_cons, hr] at h
      have hw : w = r := by simpa using h.symm
      subst hw
      have hfid : ((f w).id == vid) = true := by rw [hid]; exact hr
      simp [replaceFirst, hr, List.find?_cons, hfid]
    | false =>
      simp only [List.find?_cons, hr] at h
      simp [replaceFirst, hr, List.find?_cons, ih h]

theorem filter_replaceFirst {s : List Row} {vid : String} {w : Row}
    (f : Row → Row) (h : s.find? (fun r => r.id == vid) = some w)
    (hid : (f w).id = w.id) :
    (replaceFirst s vid f).filter (fun r => !(r.id == vid)) =
      s.filter (fun r => !(r.id == vid)) := by
  induction s with
  | nil => rfl
  | cons r rs ih =>
    cases hr : (r.id == vid) with
    | true =>
      simp only [List.find?_cons, hr] at h
      have hw : w = r := by simpa using h.symm
      subst hw
      have hfid : ((f w).id == vid) = true := by rw [hid]; exact hr
      simp [replaceFirst, hr, List.filter_cons, hfid]
    | false =>
      simp only [List.find?_cons, hr] at h
      simp [replaceFirst, hr, List.filter_cons, ih h]

theorem mapid_replaceFirst {s : List Row} {vid : String} {w : Row}
    (f : Row → Row) (h : s.find? (fun r => r.id == vid) = some w)
    (hid : (f w).id = w.id) :
    (replaceFirst s vid f).map Row.id = s.map Row.id := by
  induction s with
  | nil => rfl
  | cons r rs ih =>
    cases hr : (r.id == vid) with
    | true =>
      simp only [List.find?_cons, hr] at h
      have hw : w = r := by simpa using h.symm
      subst hw
      simp [replaceFirst, hr, hid]
    | false =>
      simp only [List.find?_cons, hr] at h
      simp [replaceFirst, hr, ih h]

theorem mem_replaceFirst {s : List Row} {vid : String} {f : Row → Row}
    {x : Row} (h : x ∈ replaceFirst s vid f) :
    x ∈ s ∨ ∃ w, w ∈ s ∧ (w.id == vid) = true ∧ x = f w := by
  induction s with
  | nil => simp [replaceFirst] at h
  | cons r rs ih =>
    cases hr : (r.id == vid) with
    | true =>
      simp [replaceFirst, hr] at h
      rcases h with h | h
      · exact Or.inr ⟨r, List.mem_cons_self r rs, hr, h⟩
      · exact Or.inl (List.mem_cons_of_mem r h)
    | false =>
      simp [replaceFirst, hr] at h
      rcases h with h | h
      · exact Or.inl (h ▸ List.mem_cons_self r rs)
      · rcases ih h with h' | ⟨w, hw, hwid, hx⟩
        · exact Or.inl (List.mem_cons_of_mem r h')
        · exact Or.inr ⟨w, List.mem_cons_of_mem r hw, hwid, hx⟩

/-! ### C10 -/

/-- C10: `update_video` tests `if not updates` before querying the row,
so an update body with no supplied keys is answered 400 — never 404, even
for an id that is not in the store — and the store is unchanged. -/
theorem update_400_before_404 (now : Nat) (vid : String) (p : VideoUpdate)
    (s : List Row) (h : updateIsEmpty p = true) :
    update_video now vid p s = (Except.error 400, s) := by
  simp [update_video, h]

/-- Witness for C10 at a store that does not contain the requested id. -/
theorem update_400_before_404_witness :
    updateIsEmpty ({} : VideoUpdate) = true ∧
      update_video 0 "missing" {} [rowA] = (Except.error 400, [rowA]) :=
  ⟨by decide, update_400_before_404 0 "missing" {} [rowA] (by decide)⟩

/-! ### C1 -/

/-- C1 counterexample: updating row `"a"` (whose stored `script` is
`some "keep"`) with the payload that supplies `script` as the empty
string changes the stored `script` — the claim says the prior value is
left unchanged. -/
theorem update_empty_string_changes_row :
    ((update_video 9 "a" updEmptyScript [rowA]).2.find?
        (fun r => r.id == "a")).map Row.script ≠
      (([rowA] : List Row).find? (fun r => r.id == "a")).map Row.script := by
  decide

/-- C1 (amended): an empty-string value is normalized to null but the key
stays in the update set, so the stored field is overwritten with null:
the five nullable columns are cleared to absent (whereas an unsupplied
key really does leave the prior value unchanged), and supplying the empty
string for one of the NOT NULL columns `url`/`name`/`title` makes the
commit fail (500) with the store untouched.  A payload with no keys at
all is still rejected with 400. -/
theorem update_empty_string_clears (now : Nat) (vid : String)
    (p : VideoUpdate) (s : List Row) :
    (updateIsEmpty p = true →
      update_video now vid p s = (Except.error 400, s)) ∧
    (∀ row row', s.find? (fun r => r.id == vid) = some row →
      (update_video now vid p s).1 = Except.ok row' →
      ((p.script = some (some "") → row'.script = none) ∧
       (p.script = none → row'.script = row.script) ∧
       (p.image = some (some "") → row'.image = none) ∧
       (p.image = none → row'.image = row.image) ∧
       (p.video = some (some "") → row'.video = none) ∧
       (p.video = none → row'.video = row.video) ∧
       (p.user = some (some "") → row'.user = none) ∧
       (p.user = none → row'.user = row.user) ∧
       (p.poster = some (some "") → row'.poster = none) ∧
       (p.poster = none → row'.poster = row.poster))) ∧
    (∀ row, s.find? (fun r => r.id == vid) = some row →
      (p.url = some (some "") ∨ p.name = some (some "") ∨
        p.title = some (some "")) →
      update_video now vid p s = (Except.error 500, s)) := by
  refine ⟨fun h => by simp [update_video, h], ?_, ?_⟩
  · intro row row' hfind hok
    by_cases hemp : updateIsEmpty p = true
    · simp [update_video, hemp] at hok
    · simp only [update_video, hemp, if_false, Bool.false_eq_true] at hok
      rw [hfind] at hok
      rcases hu : (normalizeUpdate p).url.getD (some row.url) with _ | u
      · simp [hu] at hok
      rcases hnm : (normalizeUpdate p).name.getD (some row.name) with _ | nm
      · simp [hu, hnm] at hok
      rcases ht : (normalizeUpdate p).title.getD (some row.title) with _ | t
      · simp [hu, hnm, ht] at hok
      simp only [hu, hnm, ht] at hok
      obtain rfl := Except.ok.inj hok
      refine ⟨fun h => ?_, fun h => ?_, fun h => ?_, fun h => ?_, fun h => ?_,
        fun h => ?_, fun h => ?_, fun h => ?_, fun h => ?_, fun h => ?_⟩ <;>
        simp [normalizeUpdate, h, empty_to_none]
  · intro row hfind hbad
    by_cases hemp : updateIsEmpty p = true
    · exfalso
      simp [updateIsEmpty] at hemp
      rcases hbad with h | h | h <;> simp [h, Option.isNone] at hemp
    · simp only [update_video, hemp, if_false, Bool.false_eq_true]
      rw [hfind]
      rcases hbad with h | h | h <;>
        simp [normalizeUpdate, h, empty_to_none]

/-- Witness for the amended C1 statement: the 400 clause and the clearing
clause instantiated on the concrete store. -/
theorem update_empty_string_clears_witness :
    updateIsEmpty ({} : VideoUpdate) = true ∧
      update_video 3 "a" {} [rowA] = (Except.error 400, [rowA]) :=
  ⟨by decide, (update_empty_string_clears 3 "a" {} [rowA]).1 (by decide)⟩

/-! ### C2 -/

theorem get_video_of_find?_none {now : Nat} {vid : String} {s : List Row}
    (h : s.find? (fun r => r.id == vid) = none) :
    get_video now vid s = (Except.error 404, s) := by
  simp [get_video, h]

theorem get_video_of_find?_some {now : Nat} {vid : String} {s : List Row}
    {row : Row} (h : s.find? (fun r => r.id == vid) = some row) :
    get_video now vid s =
      (Except.ok { row with views := row.views + 1, updated_at := now },
        replaceFirst s vid
          (fun _ => { row with views := row.views + 1, updated_at := now })) := by
  simp [get_video, h]

theorem getCalls_spec (nows : List Nat) (vid : String) :
    ∀ (s : List Row) (row : Row),
      s.find? (fun r => r.id == vid) = some row →
      ∃ row', (getCalls nows vid s).find? (fun r => r.id == vid) = some row' ∧
        row'.views = row.views + nows.length ∧
        row'.id = row.id ∧ row'.url = row.url ∧ row'.name = row.name ∧
        row'.title = row.title ∧ row'.image = row.image ∧
        row'.video = row.video ∧ row'.user = row.user ∧
        row'.poster = row.poster ∧ row'.script = row.script ∧
        row'.created_at = row.created_at ∧
        (getCalls nows vid s).filter (fun r => !(r.id == vid)) =
          s.filter (fun r => !(r.id == vid)) := by
  induction nows with
  | nil =>
    intro s row h
    exact ⟨row, h, by simp [getCalls], rfl, rfl, rfl, rfl, rfl, rfl, rfl,
      rfl, rfl, rfl, by simp [getCalls]⟩
  | cons n ns ih =>
    intro s row h
    have hid : s.find? (fun r => r.id == vid) = some row := h
    have hwid : ((fun _ : Row =>
        { row with views := row.views + 1, updated_at := n }) row).id
        = row.id := rfl
    have hstep : getCalls (n :: ns) vid s =
        getCalls ns vid (replaceFirst s vid
          (fun _ => { row with views := row.views + 1, updated_at := n })) := by
      simp [getCalls, List.foldl_cons, get_video_of_find?_some hid]
    have hfind' := find?_replaceFirst_self
      (fun _ : Row => { row with views := row.views + 1, updated_at := n }) hid hwid
    obtain ⟨row', h1, h2, h3⟩ := ih _ _ hfind'
    refine ⟨row', by rw [hstep]; exact h1, ?_, ?_⟩
    · have h2' : row'.views = row.views + 1 + (ns.length : Int) := h2
      rw [h2', List.length_cons]
      push_cast
      ring
    · have hfil := filter_replaceFirst
        (fun _ : Row => { row with views := row.views + 1, updated_at := n }) hid hwid
      obtain ⟨g1, g2, g3, g4, g5, g6, g7, g8, g9, g10, g11⟩ := h3
      exact ⟨g1, g2, g3, g4, g5, g6, g7, g8, g9, g10, by rw [hstep, g11, hfil]⟩

/-- C2 counterexample: one detail fetch at time 1 of a row whose stored
`updated_at` is 0 changes the stored `updated_at` (the SQLAlchemy
`onupdate` hook fires on the view-increment commit), so the fetch does
not leave every field other than `views` unchanged. -/
theorem get_video_changes_updated_at :
    ((get_video 1 "b" [rowB]).2.find? (fun r => r.id == "b")).map
        Row.updated_at ≠
      (([rowB] : List Row).find? (fun r => r.id == "b")).map
        Row.updated_at := by
  decide

/-- C2 (amended): a fetch of an absent id fails 404 with the store
unchanged; a fetch of a present id increments that row's stored `views`
by exactly 1, refreshes its `updated_at` to the request time, and
returns the updated row, so `k` successive fetches raise stored `views`
by exactly `k` while every column other than `views` and `updated_at`,
and every other row, is unchanged. -/
theorem get_video_increments_views (vid : String) (s : List Row) :
    (s.find? (fun r => r.id == vid) = none →
      ∀ now, get_video now vid s = (Except.error 404, s)) ∧
    (∀ row, s.find? (fun r => r.id == vid) = some row → ∀ now,
      get_video now vid s =
        (Except.ok { row with views := row.views + 1, updated_at := now },
          replaceFirst s vid
            (fun _ => { row with views := row.views + 1, updated_at := now }))) ∧
    (∀ (nows : List Nat) row, s.find? (fun r => r.id == vid) = some row →
      ∃ row', (getCalls nows vid s).find? (fun r => r.id == vid) = some row' ∧
        row'.views = row.views + nows.length ∧
        row'.id = row.id ∧ row'.url = row.url ∧ row'.name = row.name ∧
        row'.title = row.title ∧ row'.image = row.image ∧
        row'.video = row.video ∧ row'.user = row.user ∧
        row'.poster = row.poster ∧ row'.script = row.script ∧
        row'.created_at = row.created_at ∧
        (getCalls nows vid s).filter (fun r => !(r.id == vid)) =
          s.filter (fun r => !(r.id == vid))) :=
  ⟨fun h _ => get_video_of_find?_none h,
   fun _ h _ => get_video_of_find?_some h,
   fun nows row h => getCalls_spec nows vid s row h⟩

/-- Witness for the amended C2 statement: one fetch of the concrete row
at time 5. -/
theorem get_video_increments_views_witness :
    get_video 5 "b" [rowB] =
      (Except.ok { rowB with views := rowB.views + 1, updated_at := 5 },
        replaceFirst [rowB] "b"
          (fun _ => { rowB with views := rowB.views + 1, updated_at := 5 })) :=
  (get_video_increments_views "b" [rowB]).2.1 rowB (by decide) 5

/-! ### C5 -/

theorem hexChar_isHexDigit {n : Nat} (h : n < 16) :
    isHexDigit (hexChar n) = true := by
  interval_cases n <;> decide

theorem byteHex_all_hex {b : Nat} (h : b < 256) :
    ∀ c ∈ byteHex b, isHexDigit c = true := by
  intro c hc
  simp only [byteHex, List.mem_cons, List.not_mem_nil, or_false] at hc
  rcases hc with rfl | rfl
  · exact hexChar_isHexDigit (Nat.div_lt_of_lt_mul (by omega))
  · exact hexChar_isHexDigit (Nat.mod_lt _ (by omega))

theorem uuid4bytes_length {l : List Nat} (h : l.length = 16) :
    (uuid4bytes l).length = 16 := by
  unfold uuid4bytes
  split
  · rfl
  · exact h

theorem uuid4bytes_bounds {l : List Nat} (hb : ∀ b ∈ l, b < 256) :
    ∀ b ∈ uuid4bytes l, b < 256 := by
  unfold uuid4bytes
  split
  · rename_i b0 b1 b2 b3 b4 b5 b6 b7 b8 b9 b10 b11 b12 b13 b14 b15
    intro b hbm
    simp only [List.mem_cons, List.not_mem_nil, or_false] at hbm
    have h6 : b6 % 16 < 16 := Nat.mod_lt _ (by omega)
    have h8 : b8 % 64 < 64 := Nat.mod_lt _ (by omega)
    have hall : ∀ x ∈ [b0, b1, b2, b3, b4, b5, b6, b7, b8, b9, b10, b11,
        b12, b13, b14, b15], x < 256 := hb
    simp only [List.forall_mem_cons, List.forall_mem_nil, and_true] at hall
    obtain ⟨g0, g1, g2, g3, g4, g5, g6, g7, g8, g9, g10, g11, g12, g13,
      g14, g15⟩ := hall
    rcases hbm with rfl | rfl | rfl | rfl | rfl | rfl | rfl | rfl | rfl |
      rfl | rfl | rfl | rfl | rfl | rfl | rfl <;> omega
  · exact hb

theorem flatten_byteHex_length (l : List Nat) :
    ((l.map byteHex).flatten).length = 2 * l.length := by
  induction l with
  | nil => rfl
  | cons b bs ih =>
    simp only [List.map_cons, List.flatten_cons, List.length_append, ih,
      List.length_cons, byteHex, List.length_nil]
    omega

theorem flatten_byteHex_hex {l : List Nat} (hb : ∀ b ∈ l, b < 256) :
    ∀ c ∈ (l.map byteHex).flatten, isHexDigit c = true := by
  intro c hc
  rw [List.mem_flatten] at hc
  obtain ⟨cs, hcs, hcin⟩ := hc
  rw [List.mem_map] at hcs
  obtain ⟨b, hbmem, rfl⟩ := hcs
  exact byteHex_all_hex (hb b hbmem) c hcin

/-- C5: `create_video` with the required fields builds the row with the
freshly generated id `uuid.uuid4().hex` — 32 lowercase hex characters,
assumed (as the generator is random) distinct from every stored id —
`views = 0`, `created_at = updated_at = now`, the optional columns
exactly as supplied (absent by default), appends it to the store, and the
route returns it with status 201. -/
theorem create_video_spec (now : Nat) (bytes : List Nat) (p : VideoCreate)
    (s : List Row) (hlen : bytes.length = 16) (hb : ∀ b ∈ bytes, b < 256)
    (hfresh : uuid4hex bytes ∉ s.map Row.id) :
    (uuid4hex bytes).length = 32 ∧
    (∀ c ∈ (uuid4hex bytes).data, isHexDigit c = true) ∧
    (create_video now (uuid4hex bytes) p s).1.id = uuid4hex bytes ∧
    (create_video now (uuid4hex bytes) p s).1.id ∉ s.map Row.id ∧
    (create_video now (uuid4hex bytes) p s).1.views = 0 ∧
    (create_video now (uuid4hex bytes) p s).1.created_at = now ∧
    (create_video now (uuid4hex bytes) p s).1.updated_at = now ∧
    (create_video now (uuid4hex bytes) p s).1.url = p.url ∧
    (create_video now (uuid4hex bytes) p s).1.name = p.name ∧
    (create_video now (uuid4hex bytes) p s).1.title = p.title ∧
    (create_video now (uuid4hex bytes) p s).1.image = p.image ∧
    (create_video now (uuid4hex bytes) p s).1.video = p.video ∧
    (create_video now (uuid4hex bytes) p s).1.user = p.user ∧
    (create_video now (uuid4hex bytes) p s).1.poster = p.poster ∧
    (create_video now (uuid4hex bytes) p s).1.script = p.script ∧
    (create_video now (uuid4hex bytes) p s).2 =
      s ++ [(create_video now (uuid4hex bytes) p s).1] ∧
    create_status = 201 := by
  refine ⟨?_, ?_, rfl, hfresh, rfl, rfl, rfl, rfl, rfl, rfl, rfl, rfl,
    rfl, rfl, rfl, rfl, rfl⟩
  · show (((uuid4bytes bytes).map byteHex).flatten).length = 32
    rw [flatten_byteHex_length, uuid4bytes_length hlen]
  · intro c hc
    exact flatten_byteHex_hex (uuid4bytes_bounds hb) c hc

/-- Witness for C5 on 16 zero bytes and an empty optional payload. -/
theorem create_video_spec_witness :
    (List.replicate 16 0).length = 16 ∧
      (create_video 7 (uuid4hex (List.replicate 16 0))
          { url := "u", name := "n", title := "t" } [rowA]).1.views = 0 :=
  ⟨by decide,
    (create_video_spec 7 (List.replicate 16 0)
      { url := "u", name := "n", title := "t" } [rowA] (by decide)
      (by decide) (by decide)).2.2.2.2.1⟩

/-! ### C3 -/

theorem sortRows_length (k : Option SortKey) (s : List Row) :
    (sortRows k s).length = s.length := by
  cases k with
  | none => simp [sortRows]
  | some k => cases k <;> simp [sortRows]

theorem sorted_views_insertionSort (s : List Row) :
    (List.insertionSort (fun a b : Row => b.views ≤ a.views) s).Pairwise
      (fun a b => b.views ≤ a.views) := by
  haveI : IsTotal Row (fun a b : Row => b.views ≤ a.views) :=
    ⟨fun a b => le_total b.views a.views⟩
  haveI : IsTrans Row (fun a b : Row => b.views ≤ a.views) :=
    ⟨fun a b c h1 h2 => le_trans h2 h1⟩
  exact List.sorted_insertionSort _ s

theorem sorted_title_insertionSort (s : List Row) :
    (List.insertionSort (fun a b : Row => a.title ≤ b.title) s).Pairwise
      (fun a b => a.title ≤ b.title) := by
  haveI : IsTotal Row (fun a b : Row => a.title ≤ b.title) :=
    ⟨fun a b => le_total a.title b.title⟩
  haveI : IsTrans Row (fun a b : Row => a.title ≤ b.title) :=
    ⟨fun a b c h1 h2 => le_trans h1 h2⟩
  exact List.sorted_insertionSort _ s

theorem sorted_created_insertionSort (s : List Row) :
    (List.insertionSort (fun a b : Row => b.created_at ≤ a.created_at) s).Pairwise
      (fun a b => b.created_at ≤ a.created_at) := by
  haveI : IsTotal Row (fun a b : Row => b.created_at ≤ a.created_at) :=
    ⟨fun a b => le_total b.created_at a.created_at⟩
  haveI : IsTrans Row (fun a b : Row => b.created_at ≤ a.created_at) :=
    ⟨fun a b c h1 h2 => le_trans h2 h1⟩
  exact List.sorted_insertionSort _ s

theorem pairwise_slice {r : Row → Row → Prop} {l : List Row}
    (h : l.Pairwise r) (m n : Nat) : ((l.drop m).take n).Pairwise r :=
  h.sublist (((l.drop m).take_sublist n).trans (l.drop_sublist m))

/-- C3: for every store and every valid `page ≥ 1`,
`1 ≤ page_size ≤ 100`, `list_videos` reports `total` = row count and
`total_pages` = the ceiling of `total / page_size` (characterized by the
two inequalities), returns a slice of length
`min(page_size, max(0, total - (page-1)*page_size))`, sorted with
`views` non-increasing under `sort_by=views`, `title` non-decreasing
under `sort_by=title`, `created_at` non-increasing otherwise, and
performs no write: the store comes back unchanged. -/
theorem list_videos_spec (page page_size : Nat) (sort_by : Option SortKey)
    (s : List Row) (_hp : 1 ≤ page) (hps1 : 1 ≤ page_size)
    (hps2 : page_size ≤ 100) :
    (list_videos page page_size sort_by s).1.total = s.length ∧
    s.length ≤ (list_videos page page_size sort_by s).1.total_pages * page_size ∧
    (list_videos page page_size sort_by s).1.total_pages * page_size <
      s.length + page_size ∧
    ((list_videos page page_size sort_by s).1.videos.length : Int) =
      min (page_size : Int)
        (max 0 ((s.length : Int) - ((page - 1 : Nat) : Int) * page_size)) ∧
    (sort_by = some SortKey.views →
      (list_videos page page_size sort_by s).1.videos.Pairwise
        (fun a b => b.views ≤ a.views)) ∧
    (sort_by = some SortKey.title →
      (list_videos page page_size sort_by s).1.videos.Pairwise
        (fun a b => a.title ≤ b.title)) ∧
    ((sort_by = none ∨ sort_by = some SortKey.created_at) →
      (list_videos page page_size sort_by s).1.videos.Pairwise
        (fun a b => b.created_at ≤ a.created_at)) ∧
    (list_videos page page_size sort_by s).2 = s := by
  have hlen : (sortRows sort_by s).length = s.length := sortRows_length _ _
  refine ⟨?_, ?_, ?_, ?_, ?_, ?_, ?_, rfl⟩
  · simp [list_videos, paginate, hlen]
  · have hd := Nat.div_add_mod (s.length + page_size - 1) page_size
    have hm := Nat.mod_lt (s.length + page_size - 1)
      (show 0 < page_size by omega)
    have htp : (list_videos page page_size sort_by s).1.total_pages =
        (s.length + page_size - 1) / page_size := by
      simp [list_videos, paginate, hlen]
    rw [htp, Nat.mul_comm]
    omega
  · have hd := Nat.div_add_mod (s.length + page_size - 1) page_size
    have hm := Nat.mod_lt (s.length + page_size - 1)
      (show 0 < page_size by omega)
    have htp : (list_videos page page_size sort_by s).1.total_pages =
        (s.length + page_size - 1) / page_size := by
      simp [list_videos, paginate, hlen]
    rw [htp, Nat.mul_comm]
    omega
  · have hv : (list_videos page page_size sort_by s).1.videos.length =
        min page_size (s.length - (page - 1) * page_size) := by
      simp [list_videos, paginate, hlen]
    have hb : (((page - 1) * page_size : Nat) : Int) =
        ((page - 1 : Nat) : Int) * (page_size : Int) := by
      push_cast
      ring
    rw [hv]
    omega
  · intro hk
    subst hk
    exact pairwise_slice (sorted_views_insertionSort s) _ _
  · intro hk
    subst hk
    exact pairwise_slice (sorted_title_insertionSort s) _ _
  · intro hk
    rcases hk with rfl | rfl <;>
      exact pairwise_slice (sorted_created_insertionSort s) _ _

/-- Witness for C3 at a two-row store sorted by views on page 1. -/
theorem list_videos_spec_witness :
    (list_videos 1 20 (some SortKey.views) [rowA, rowB]).1.total =
      ([rowA, rowB] : List Row).length :=
  (list_videos_spec 1 20 (some SortKey.views) [rowA, rowB]
    (by decide) (by decide) (by decide)).1

/-! ### C4 -/

theorem anyCongr {α : Type} {l : List α} {f g : α → Bool}
    (h : ∀ a ∈ l, f a = g a) : l.any f = l.any g := by
  induction l with
  | nil => rfl
  | cons a l ih =>
    rw [List.any_cons, List.any_cons, h a (List.mem_cons_self a l),
      ih (fun x hx => h x (List.mem_cons_of_mem a hx))]

theorem likeMatch_pct (t : List Char) : likeMatch ['%'] t = true := by
  have : likeMatch ['%'] t = t.tails.any (fun suf => likeMatch [] suf) := by
    simp [likeMatch]
  rw [this, List.any_eq_true]
  exact ⟨[], (List.mem_tails _ _).mpr List.nil_suffix, rfl⟩

theorem likeMatch_pct_cons (p : List Char) (t : List Char) :
    likeMatch ('%' :: p) t = t.tails.any (fun suf => likeMatch p suf) := by
  simp [likeMatch]

theorem likeMatch_append_pct {q : List Char}
    (hq : ∀ c ∈ q, ¬ c = '%' ∧ ¬ c = '_') :
    ∀ t, likeMatch (q ++ ['%']) t = q.isPrefixOf t := by
  induction q with
  | nil =>
    intro t
    simp [List.isPrefixOf, likeMatch_pct t]
  | cons c q ih =>
    intro t
    have hc := hq c (List.mem_cons_self c q)
    have hq' : ∀ x ∈ q, ¬ x = '%' ∧ ¬ x = '_' :=
      fun x hx => hq x (List.mem_cons_of_mem c hx)
    have hcp : (c == '%') = false := by
      simp [beq_eq_false_iff_ne, hc.1]
    have hcu : (c == '_') = false := by
      simp [beq_eq_false_iff_ne, hc.2]
    cases t with
    | nil =>
      rw [List.cons_append]
      simp [likeMatch, hcp, List.isPrefixOf]
    | cons d t =>
      rw [List.cons_append]
      simp only [likeMatch, hcp, Bool.false_eq_true, if_false, hcu,
        List.isPrefixOf, ih hq' t]

theorem likeTest_eq_ciSubstr {q : String}
    (hq : ∀ c ∈ (lowerStr q).data, ¬ c = '%' ∧ ¬ c = '_') (text : String) :
    likeTest q text = ciSubstr q text := by
  unfold likeTest ciSubstr containsSub
  rw [likeMatch_pct_cons]
  exact anyCongr (fun suf _ => likeMatch_append_pct hq suf)

theorem rowMatches_eq_ci {q : String}
    (hq : ∀ c ∈ (lowerStr q).data, ¬ c = '%' ∧ ¬ c = '_') (r : Row) :
    rowMatches q r = ciRowMatches q r := by
  unfold rowMatches ciRowMatches
  rw [likeTest_eq_ciSubstr hq, likeTest_eq_ciSubstr hq]
  cases r.script <;> simp [likeTest_eq_ciSubstr hq]

/-- C4 counterexample: with `q = "%"` (length 1, accepted by validation)
the unescaped `LIKE` pattern `%%%` matches the stored row although none
of its `title`, `name`, `script` contains `"%"` as a substring — search
is wildcard-pattern matching, not pure substring matching, for such `q`. -/
theorem search_wildcard_not_substring :
    (match (search_videos "%" 1 20 [rowA]).1 with
      | Except.ok resp => resp.videos
      | Except.error _ => []) = [rowA] ∧
    ciSubstr "%" rowA.title = false ∧
    ciSubstr "%" rowA.name = false ∧
    (match rowA.script with
      | some sc => ciSubstr "%" sc
      | none => false) = false := by
  decide

/-- C4 (amended): for every non-empty `q` containing no `LIKE`
metacharacter (`'%'`, `'_'`, or the escape `'\'` — the code does not
escape `q` before wrapping it in `%`), the search response is exactly the
rows whose `title`, `name` or `script` contains `q` as a case-insensitive
substring, ordered by `views` descending and paginated exactly as
`list_videos` paginates (same `paginate`), the returned page has
non-increasing `views`, the store is untouched, and the empty query is
rejected with 422. -/
theorem search_videos_spec (q : String) (page page_size : Nat)
    (s : List Row) (hq : q.isEmpty = false)
    (hw : ∀ c ∈ (lowerStr q).data, ¬ c = '%' ∧ ¬ c = '_' ∧ ¬ c = '\\') :
    search_videos "" page page_size s = (Except.error 422, s) ∧
    search_videos q page page_size s =
      (Except.ok (paginate page page_size
        (List.insertionSort (fun a b => b.views ≤ a.views)
          (s.filter (ciRowMatches q)))), s) ∧
    (∀ resp, (search_videos q page page_size s).1 = Except.ok resp →
      resp.videos.Pairwise (fun a b => b.views ≤ a.views)) := by
  have hw' : ∀ c ∈ (lowerStr q).data, ¬ c = '%' ∧ ¬ c = '_' :=
    fun c hc => ⟨(hw c hc).1, (hw c hc).2.1⟩
  have hfil : s.filter (rowMatches q) = s.filter (ciRowMatches q) :=
    List.filter_congr (fun r _ => rowMatches_eq_ci hw' r)
  refine ⟨rfl, ?_, ?_⟩
  · simp only [search_videos, hq, Bool.false_eq_true, if_false, hfil]
  · intro resp hresp
    simp only [search_videos, hq, Bool.false_eq_true, if_false] at hresp
    obtain rfl := Except.ok.inj hresp
    exact pairwise_slice
      (sorted_views_insertionSort (s.filter (rowMatches q))) _ _

/-- Witness for the amended C4 statement at the concrete query `"abc"`
(nonempty, wildcard-free) over the one-row store. -/
theorem search_videos_spec_witness :
    search_videos "abc" 1 20 [rowA] =
      (Except.ok (paginate 1 20
        (List.insertionSort (fun a b => b.views ≤ a.views)
          (([rowA] : List Row).filter (ciRowMatches "abc")))), [rowA]) :=
  (search_videos_spec "abc" 1 20 [rowA] (by decide) (by decide)).2.1

/-! ### Ingestion lemmas (C6, C7, C8, C9) -/

theorem applyRec_invalid {t0 : Nat} {s : List Row} {r : FeedRec}
    (h : recValid r = false) : applyRec t0 s r = s := by
  unfold applyRec
  cases hid : r.id with
  | none => rfl
  | some i =>
    cases hurl : r.url with
    | none => rfl
    | some u =>
      cases hnm : r.name with
      | none => rfl
      | some nm =>
        cases ht : r.title with
        | none => rfl
        | some t =>
          cases hv : r.views with
          | none => rfl
          | some v =>
            rw [recValid, hid, hurl, hnm, ht, hv] at h
            simp at h

theorem applyRec_valid {t0 : Nat} {s : List Row} {r : FeedRec}
    {i u nm t : String} {v : Int} (h1 : r.id = some i) (h2 : r.url = some u)
    (h3 : r.name = some nm) (h4 : r.title = some t) (h5 : r.views = some v) :
    applyRec t0 s r =
      if hasId s i then replaceFirst s i (updRowP u nm t v r)
      else s ++ [insRow t0 i u nm t v r] := by
  unfold applyRec
  rw [h1, h2, h3, h4, h5]

theorem hasId_replaceFirst {s : List Row} {vid k : String} {f : Row → Row}
    (hid : ∀ row, (f row).id = row.id) :
    hasId (replaceFirst s vid f) k = hasId s k := by
  induction s with
  | nil => rfl
  | cons r rs ih =>
    cases hr : (r.id == vid) with
    | true => simp [replaceFirst, hr, hasId, List.any_cons, hid]
    | false =>
      simp only [replaceFirst, hr, Bool.false_eq_true, if_false]
      simp [hasId, List.any_cons] at ih ⊢
      rw [ih]

theorem hasId_applyRec_mono {t0 : Nat} {s : List Row} {r : FeedRec}
    {k : String} (h : hasId s k = true) :
    hasId (applyRec t0 s r) k = true := by
  by_cases hval : recValid r = true
  · rw [recValid] at hval
    simp only [Bool.and_eq_true, Option.isSome_iff_exists] at hval
    obtain ⟨⟨⟨⟨⟨i, h1⟩, u, h2⟩, nm, h3⟩, t, h4⟩, v, h5⟩ := hval
    rw [applyRec_valid h1 h2 h3 h4 h5]
    by_cases hpres : hasId s i = true
    · rw [if_pos hpres,
        @hasId_replaceFirst s i k (updRowP u nm t v r) (fun _ => rfl), h]
    · rw [if_neg hpres]
      simp [hasId, List.any_append] at h ⊢
      exact Or.inl h
  · rw [applyRec_invalid (Bool.not_eq_true _ ▸ hval), h]

theorem hasId_runUpsert_mono {t0 : Nat} {feed : List FeedRec} :
    ∀ {s : List Row} {k : String}, hasId s k = true →
      hasId (runUpsert t0 s feed) k = true := by
  induction feed with
  | nil => intro s k h; exact h
  | cons r feed ih =>
    intro s k h
    exact ih (hasId_applyRec_mono h)

theorem hasId_applyRec_self {t0 : Nat} {s : List Row} {r : FeedRec}
    {i u nm t : String} {v : Int} (h1 : r.id = some i) (h2 : r.url = some u)
    (h3 : r.name = some nm) (h4 : r.title = some t) (h5 : r.views = some v) :
    hasId (applyRec t0 s r) i = true := by
  rw [applyRec_valid h1 h2 h3 h4 h5]
  by_cases hpres : hasId s i = true
  · rw [if_pos hpres,
      @hasId_replaceFirst s i i (updRowP u nm t v r) (fun _ => rfl)]
    exact hpres
  · rw [if_neg hpres]
    simp [hasId, List.any_append, insRow]

theorem find?_applyRec_update {t0 : Nat} {s : List Row} {r : FeedRec}
    {i u nm t : String} {v : Int} {w : Row} (h1 : r.id = some i)
    (h2 : r.url = some u) (h3 : r.name = some nm) (h4 : r.title = some t)
    (h5 : r.views = some v)
    (hfind : s.find? (fun row => row.id == i) = some w) :
    (applyRec t0 s r).find? (fun row => row.id == i) =
      some (updRowP u nm t v r w) := by
  rw [applyRec_valid h1 h2 h3 h4 h5, if_pos]
  · exact find?_replaceFirst_self _ hfind rfl
  · rw [hasId_eq_isSome, hfind]
    rfl

/-- Shape of a successful `update_video`: the row found by id is rewritten
with `updated_at := now`, keeping `id`, `views` and `created_at`. -/
theorem update_video_ok_shape {now : Nat} {vid : String} {p : VideoUpdate}
    {s : List Row} {row' : Row}
    (h : (update_video now vid p s).1 = Except.ok row') :
    ∃ row, s.find? (fun x => x.id == vid) = some row ∧
      row'.id = row.id ∧ row'.views = row.views ∧
      row'.created_at = row.created_at ∧ row'.updated_at = now ∧
      (update_video now vid p s).2 =
        replaceFirst s vid (fun _ => row') := by
  by_cases hemp : updateIsEmpty p = true
  · simp [update_video, hemp] at h
  · cases hfind : s.find? (fun x => x.id == vid) with
    | none =>
      have hpair : update_video now vid p s = (Except.error 404, s) := by
        simp only [update_video, hemp, if_false, Bool.false_eq_true, hfind]
      rw [hpair] at h
      simp at h
    | some row =>
      rcases hu : (normalizeUpdate p).url.getD (some row.url) with _ | u
      · have hpair : update_video now vid p s = (Except.error 500, s) := by
          simp only [update_video, hemp, if_false, Bool.false_eq_true,
            hfind, hu]
        rw [hpair] at h
        simp at h
      rcases hnm : (normalizeUpdate p).name.getD (some row.name) with _ | nm
      · have hpair : update_video now vid p s = (Except.error 500, s) := by
          simp only [update_video, hemp, if_false, Bool.false_eq_true,
            hfind, hu, hnm]
        rw [hpair] at h
        simp at h
      rcases ht : (normalizeUpdate p).title.getD (some row.title) with _ | t
      · have hpair : update_video now vid p s = (Except.error 500, s) := by
          simp only [update_video, hemp, if_false, Bool.false_eq_true,
            hfind, hu, hnm, ht]
        rw [hpair] at h
        simp at h
      have hpair : update_video now vid p s =
          (Except.ok (appliedUpdate now p row u nm t),
            replaceFirst s vid (fun _ => appliedUpdate now p row u nm t)) := by
        simp only [update_video, hemp, if_false, Bool.false_eq_true,
          hfind, hu, hnm, ht, appliedUpdate]
      rw [hpair] at h
      obtain rfl := Except.ok.inj h
      exact ⟨row, rfl, rfl, rfl, rfl, rfl, by rw [hpair]⟩

/-- Shape of a successful `get_video`: views bumped, `updated_at := now`,
everything else of the row kept. -/
theorem get_video_ok_shape {now : Nat} {vid : String} {s : List Row}
    {row' : Row} (h : (get_video now vid s).1 = Except.ok row') :
    ∃ row, s.find? (fun x => x.id == vid) = some row ∧
      row' = { row with views := row.views + 1, updated_at := now } ∧
      (get_video now vid s).2 =
        replaceFirst s vid (fun _ => row') := by
  cases hfind : s.find? (fun x => x.id == vid) with
  | none =>
    rw [get_video_of_find?_none hfind] at h
    simp at h
  | some row =>
    rw [get_video_of_find?_some hfind] at h
    obtain rfl := Except.ok.inj h
    exact ⟨row, rfl, rfl, by rw [get_video_of_find?_some hfind]⟩

/-! ### C8 -/

/-- C8 counterexample: upserting an existing id at engine time 7 leaves
the row's stored `updated_at` at its old value 1 — the ingestion upsert
statement does not refresh `updated_at` (the SQLAlchemy `onupdate` hook
lives in the API process, and the SQL names neither timestamp column). -/
theorem upsert_does_not_refresh_updated_at :
    ((runUpsert 7 [rowA] [recA]).find? (fun r => r.id == "a")).map
        Row.updated_at = some 1 ∧ (1 : Nat) ≠ 7 := by
  decide

/-- C8 (amended): `update_video` and `get_video` refresh the mutated
row's `updated_at` to the request time and never change `created_at`;
`create_video` sets `created_at = updated_at = now` once; the ingestion
upsert on an existing id rewrites exactly the nine non-key columns with
the incoming values while leaving both `created_at` and `updated_at`
untouched. -/
theorem updated_at_refresh_spec (now t0 : Nat) (vid newId : String)
    (p : VideoUpdate) (pc : VideoCreate) (s : List Row) (r : FeedRec) :
    (∀ row', (update_video now vid p s).1 = Except.ok row' →
      row'.updated_at = now) ∧
    (∀ row', (get_video now vid s).1 = Except.ok row' →
      row'.updated_at = now) ∧
    (∀ row row', s.find? (fun x => x.id == vid) = some row →
      (update_video now vid p s).1 = Except.ok row' →
      row'.created_at = row.created_at) ∧
    (∀ row row', s.find? (fun x => x.id == vid) = some row →
      (get_video now vid s).1 = Except.ok row' →
      row'.created_at = row.created_at) ∧
    (create_video now newId pc s).1.created_at = now ∧
    (create_video now newId pc s).1.updated_at = now ∧
    (∀ i u nm t v w, r.id = some i → r.url = some u → r.name = some nm →
      r.title = some t → r.views = some v →
      s.find? (fun x => x.id == i) = some w →
      (applyRec t0 s r).find? (fun x => x.id == i) =
        some (updRowP u nm t v r w) ∧
      (updRowP u nm t v r w).updated_at = w.updated_at ∧
      (updRowP u nm t v r w).created_at = w.created_at ∧
      (updRowP u nm t v r w).id = w.id ∧
      (updRowP u nm t v r w).url = u ∧
      (updRowP u nm t v r w).name = nm ∧
      (updRowP u nm t v r w).title = t ∧
      (updRowP u nm t v r w).views = v ∧
      (updRowP u nm t v r w).image = r.image ∧
      (updRowP u nm t v r w).video = r.video ∧
      (updRowP u nm t v r w).user = r.user ∧
      (updRowP u nm t v r w).poster = r.poster ∧
      (updRowP u nm t v r w).script = r.script) := by
  refine ⟨?_, ?_, ?_, ?_, rfl, rfl, ?_⟩
  · intro row' h
    obtain ⟨row, _, _, _, _, hupd, _⟩ := update_video_ok_shape h
    exact hupd
  · intro row' h
    obtain ⟨row, _, heq, _⟩ := get_video_ok_shape h
    rw [heq]
  · intro row row' hfind h
    obtain ⟨row2, hfind2, _, _, hcr, _, _⟩ := update_video_ok_shape h
    rw [hfind] at hfind2
    obtain rfl := Option.some.inj hfind2.symm
    exact hcr
  · intro row row' hfind h
    obtain ⟨row2, hfind2, heq, _⟩ := get_video_ok_shape h
    rw [hfind] at hfind2
    obtain rfl := Option.some.inj hfind2.symm
    rw [heq]
  · intro i u nm t v w h1 h2 h3 h4 h5 hfind
    exact ⟨find?_applyRec_update h1 h2 h3 h4 h5 hfind, rfl, rfl, rfl, rfl,
      rfl, rfl, rfl, rfl, rfl, rfl, rfl, rfl⟩

/-- Witness for the amended C8 statement: the concrete upsert of `recA`
over the store holding `rowA`. -/
theorem updated_at_refresh_spec_witness :
    (applyRec 7 [rowA] recA).find? (fun x => x.id == "a") =
        some (updRowP "u2" "n2" "t2" 0 recA rowA) ∧
      (updRowP "u2" "n2" "t2" 0 recA rowA).updated_at = rowA.updated_at :=
  ⟨((updated_at_refresh_spec 7 7 "a" "z" {} pcA [rowA] recA).2.2.2.2.2.2
      "a" "u2" "n2" "t2" 0 rowA rfl rfl rfl rfl rfl (by decide)).1,
   ((updated_at_refresh_spec 7 7 "a" "z" {} pcA [rowA] recA).2.2.2.2.2.2
      "a" "u2" "n2" "t2" 0 rowA rfl rfl rfl rfl rfl (by decide)).2.1⟩

/-! ### C9 -/

/-- C9: a record whose upsert fails is skipped while every record before
and after it is still processed (the fold passes over it unchanged); all
successfully processed records are committed together by the single
trailing commit (exit 0), and a failing final commit rolls everything
back — the store keeps its prior contents — and the process exits 1. -/
theorem upsert_videos_error_handling (t0 : Nat) (s : List Row)
    (xs ys feed : List FeedRec) (bad : FeedRec)
    (hbad : recValid bad = false) :
    runUpsert t0 s (xs ++ bad :: ys) = runUpsert t0 (runUpsert t0 s xs) ys ∧
    upsert_videos t0 true s feed = (runUpsert t0 s feed, 0) ∧
    upsert_videos t0 false s feed = (s, 1) := by
  refine ⟨?_, rfl, rfl⟩
  unfold runUpsert
  rw [List.foldl_append, List.foldl_cons, applyRec_invalid hbad]

/-- Witness for C9: the all-`None` record dropped between two copies of a
valid feed record. -/
theorem upsert_videos_error_handling_witness :
    runUpsert 0 [rowA] ([recA] ++ recBad :: [recA]) =
      runUpsert 0 (runUpsert 0 [rowA] [recA]) [recA] :=
  (upsert_videos_error_handling 0 [rowA] [recA] [recA] [] recBad
    (by decide)).1

/-! ### C7 -/

theorem search_videos_store (q : String) (page page_size : Nat)
    (s : List Row) : (search_videos q page page_size s).2 = s := by
  unfold search_videos
  split <;> rfl

theorem not_mem_mapid_of_not_hasId {s : List Row} {i : String}
    (h : ¬ hasId s i = true) : i ∉ s.map Row.id := by
  intro hmem
  rw [List.mem_map] at hmem
  obtain ⟨r, hr, hid⟩ := hmem
  exact h (by rw [hasId, List.any_eq_true]; exact ⟨r, hr, by simp [hid]⟩)

theorem Inv_replaceFirst {s : List Row} {vid : String} {w : Row}
    {f : Row → Row} (hInv : StoreInv s)
    (hfind : s.find? (fun x => x.id == vid) = some w)
    (hid : (f w).id = w.id)
    (hrow : ∀ x ∈ s, 0 ≤ (f x).views ∧ (f x).created_at ≤ (f x).updated_at) :
    StoreInv (replaceFirst s vid f) := by
  constructor
  · rw [mapid_replaceFirst f hfind hid]
    exact hInv.1
  · intro x hx
    rcases mem_replaceFirst hx with hx | ⟨w2, hw2, _, rfl⟩
    · exact hInv.2 x hx
    · exact hrow w2 hw2

theorem Inv_applyRec {t0 : Nat} {s : List Row} {r : FeedRec}
    (hInv : StoreInv s) (hv : ∀ v, r.views = some v → 0 ≤ v) :
    StoreInv (applyRec t0 s r) := by
  by_cases hval : recValid r = true
  · rw [recValid] at hval
    simp only [Bool.and_eq_true, Option.isSome_iff_exists] at hval
    obtain ⟨⟨⟨⟨⟨i, h1⟩, u, h2⟩, nm, h3⟩, t, h4⟩, v, h5⟩ := hval
    rw [applyRec_valid h1 h2 h3 h4 h5]
    by_cases hpres : hasId s i = true
    · rw [if_pos hpres]
      rw [hasId_eq_isSome, Option.isSome_iff_exists] at hpres
      obtain ⟨w, hw⟩ := hpres
      exact Inv_replaceFirst hInv hw rfl
        (fun x hx => ⟨hv v h5, (hInv.2 x hx).2⟩)
    · rw [if_neg hpres]
      constructor
      · rw [List.map_append, List.nodup_append]
        refine ⟨hInv.1, by simp [insRow], ?_⟩
        intro a ha hb
        simp only [List.map_cons, List.map_nil, List.mem_cons,
          List.not_mem_nil, or_false, insRow] at hb
        subst hb
        exact not_mem_mapid_of_not_hasId hpres ha
      · intro x hx
        rcases List.mem_append.mp hx with hx | hx
        · exact hInv.2 x hx
        · simp only [List.mem_cons, List.not_mem_nil, or_false] at hx
          subst hx
          exact ⟨hv v h5, le_refl _⟩
  · rw [applyRec_invalid (Bool.not_eq_true _ ▸ hval)]
    exact hInv

theorem Inv_runUpsert {t0 : Nat} {feed : List FeedRec} :
    ∀ {s : List Row}, StoreInv s →
      (∀ rec ∈ feed, ∀ v, rec.views = some v → 0 ≤ v) →
      StoreInv (runUpsert t0 s feed) := by
  induction feed with
  | nil => intro s hInv _; exact hInv
  | cons r feed ih =>
    intro s hInv hfeed
    exact ih (Inv_applyRec hInv (hfeed r (List.mem_cons_self r feed)))
      (fun rec hrec => hfeed rec (List.mem_cons_of_mem r hrec))

/-- C7 counterexample: the empty store satisfies the invariants, but one
Ingestion Sync upsert of a feed record with `views = -1` produces a store
violating `views >= 0` — ingestion writes the feed's `views` verbatim. -/
theorem upsert_breaks_views_invariant :
    StoreInv ([] : List Row) ∧ ¬ StoreInv (runUpsert 0 [] [recNeg]) := by
  constructor
  · exact ⟨List.nodup_nil, fun r hr => absurd hr (List.not_mem_nil r)⟩
  · intro h
    have := (h.2 (insRow 0 "neg" "u" "n" "t" (-1) recNeg)
      (by simp [runUpsert, applyRec, recNeg, hasId])).1
    simp [insRow] at this

/-- C7 (amended): every Resource API operation preserves the three
invariants (create needs its generated id to be fresh, and the mutating
operations need the request time to be at or after every stored
`created_at`); Ingestion Sync preserves id uniqueness and
`created_at <= updated_at`, and preserves `views >= 0` exactly when each
feed record's supplied `views` is non-negative — a negative feed `views`
is written verbatim and breaks the invariant. -/
theorem invariants_preserved (now t0 : Nat) (vid newId q : String)
    (page page_size : Nat) (sort_by : Option SortKey) (p : VideoUpdate)
    (pc : VideoCreate) (s : List Row) (feed : List FeedRec)
    (hInv : StoreInv s) (hc : ∀ r ∈ s, r.created_at ≤ now)
    (hfresh : newId ∉ s.map Row.id)
    (hfeed : ∀ rec ∈ feed, ∀ v, rec.views = some v → 0 ≤ v) :
    StoreInv (list_videos page page_size sort_by s).2 ∧
    StoreInv (search_videos q page page_size s).2 ∧
    StoreInv (get_video now vid s).2 ∧
    StoreInv (create_video now newId pc s).2 ∧
    StoreInv (update_video now vid p s).2 ∧
    StoreInv (delete_video vid s).2 ∧
    StoreInv (runUpsert t0 s feed) := by
  refine ⟨hInv, ?_, ?_, ?_, ?_, ?_, Inv_runUpsert hInv hfeed⟩
  · rw [search_videos_store]
    exact hInv
  · cases hok : (get_video now vid s).1 with
    | error e =>
      have : (get_video now vid s).2 = s := by
        unfold get_video at hok ⊢
        cases hfind : s.find? (fun x => x.id == vid) with
        | none => rfl
        | some row => rw [hfind] at hok; cases hok
      rw [this]
      exact hInv
    | ok row' =>
      obtain ⟨row, hfind, heq, hstore⟩ := get_video_ok_shape hok
      rw [hstore]
      have hmem := List.mem_of_find?_eq_some hfind
      refine Inv_replaceFirst hInv hfind (by rw [heq]) ?_
      intro x hx
      rw [heq]
      constructor
      · have := (hInv.2 row hmem).1
        simp only []
        omega
      · simp only []
        exact hc row hmem
  · constructor
    · unfold create_video
      simp only [List.map_append, List.map_cons, List.map_nil]
      rw [List.nodup_append]
      refine ⟨hInv.1, by simp, ?_⟩
      intro a ha hb
      simp only [List.mem_cons, List.not_mem_nil, or_false] at hb
      subst hb
      exact hfresh ha
    · intro x hx
      unfold create_video at hx
      rcases List.mem_append.mp hx with hx | hx
      · exact hInv.2 x hx
      · simp only [List.mem_cons, List.not_mem_nil, or_false] at hx
        subst hx
        exact ⟨le_refl _, le_refl _⟩
  · cases hok : (update_video now vid p s).1 with
    | error e =>
      have : (update_video now vid p s).2 = s := by
        unfold update_video at hok ⊢
        by_cases hemp : updateIsEmpty p = true
        · simp [hemp]
        · simp only [hemp, if_false, Bool.false_eq_true] at hok ⊢
          cases hfind : s.find? (fun x => x.id == vid) with
          | none => rfl
          | some row =>
            rw [hfind] at hok
            rcases hu : (normalizeUpdate p).url.getD (some row.url) with _ | u <;>
              rcases hnm : (normalizeUpdate p).name.getD (some row.name) with _ | nm <;>
                rcases ht : (normalizeUpdate p).title.getD (some row.title) with _ | t <;>
                  (simp only [hu, hnm, ht] at hok ⊢
                   all_goals first | rfl | cases hok)
      rw [this]
      exact hInv
    | ok row' =>
      obtain ⟨row, hfind, hid, hviews, hcr, hupd, hstore⟩ :=
        update_video_ok_shape hok
      rw [hstore]
      have hmem := List.mem_of_find?_eq_some hfind
      refine Inv_replaceFirst hInv hfind hid ?_
      intro x hx
      refine ⟨?_, ?_⟩
      · rw [hviews]
        exact (hInv.2 row hmem).1
      · rw [hcr, hupd]
        exact hc row hmem
  · unfold delete_video
    cases hfind : s.find? (fun x => x.id == vid) with
    | none => exact hInv
    | some row =>
      have hsub : List.Sublist (s.eraseP (fun x => x.id == vid)) s :=
        List.eraseP_sublist s
      constructor
      · exact hInv.1.sublist (hsub.map Row.id)
      · intro x hx
        exact hInv.2 x (hsub.mem hx)

/-- Witness for the amended C7 statement: the invariants hold after the
concrete ingestion run of `recA` over the store holding `rowA`. -/
theorem invariants_preserved_witness : StoreInv (runUpsert 0 [rowA] [recA]) :=
  (invariants_preserved 5 0 "a" "z" "q" 1 20 none {} pcA [rowA] [recA]
    (by decide) (by decide) (by decide) (by decide)).2.2.2.2.2.2

/-! ### C6 -/

theorem applyUpd_invalid {s : List Row} {r : FeedRec}
    (h : recValid r = false) : applyUpd s r = s := by
  unfold applyUpd
  cases hid : r.id with
  | none => rfl
  | some i =>
    cases hurl : r.url with
    | none => rfl
    | some u =>
      cases hnm : r.name with
      | none => rfl
      | some nm =>
        cases ht : r.title with
        | none => rfl
        | some t =>
          cases hv : r.views with
          | none => rfl
          | some v =>
            rw [recValid, hid, hurl, hnm, ht, hv] at h
            simp at h

theorem applyUpd_valid {s : List Row} {r : FeedRec} {i u nm t : String}
    {v : Int} (h1 : r.id = some i) (h2 : r.url = some u)
    (h3 : r.name = some nm) (h4 : r.title = some t) (h5 : r.views = some v) :
    applyUpd s r = replaceFirst s i (updRowP u nm t v r) := by
  unfold applyUpd
  rw [h1, h2, h3, h4, h5]

theorem applyRec_eq_applyUpd {t0 : Nat} {s : List Row} {r : FeedRec}
    {i u nm t : String} {v : Int} (h1 : r.id = some i) (h2 : r.url = some u)
    (h3 : r.name = some nm) (h4 : r.title = some t) (h5 : r.views = some v)
    (hpres : hasId s i = true) : applyRec t0 s r = applyUpd s r := by
  rw [applyRec_valid h1 h2 h3 h4 h5, if_pos hpres,
    applyUpd_valid h1 h2 h3 h4 h5]

theorem hasId_applyUpd_mono {s : List Row} {r : FeedRec} {k : String}
    (h : hasId s k = true) : hasId (applyUpd s r) k = true := by
  by_cases hval : recValid r = true
  · rw [recValid] at hval
    simp only [Bool.and_eq_true, Option.isSome_iff_exists] at hval
    obtain ⟨⟨⟨⟨⟨i, h1⟩, u, h2⟩, nm, h3⟩, t, h4⟩, v, h5⟩ := hval
    rw [applyUpd_valid h1 h2 h3 h4 h5,
      @hasId_replaceFirst s i k (updRowP u nm t v r) (fun _ => rfl)]
    exact h
  · rw [applyUpd_invalid (Bool.not_eq_true _ ▸ hval)]
    exact h

theorem find?_replaceFirst_ne {s : List Row} {j i : String} {f : Row → Row}
    (hid : ∀ row, (f row).id = row.id) (hne : ¬ j = i) :
    (replaceFirst s j f).find? (fun x => x.id == i) =
      s.find? (fun x => x.id == i) := by
  induction s with
  | nil => rfl
  | cons r rs ih =>
    cases hr : (r.id == j) with
    | true =>
      have hrj : r.id = j := by simpa using hr
      have hri : (r.id == i) = false := by
        simp [hrj]
        exact hne
      have hfi : ((f r).id == i) = false := by rw [hid]; exact hri
      simp [replaceFirst, hr, List.find?_cons, hri, hfi]
    | false =>
      simp [replaceFirst, hr, List.find?_cons]
      cases hri : (r.id == i) with
      | true => simp [hri]
      | false => simp [hri, ih]

theorem find?_append_singleton_ne {s : List Row} {x : Row} {i : String}
    (hx : (x.id == i) = false) :
    (s ++ [x]).find? (fun r => r.id == i) =
      s.find? (fun r => r.id == i) := by
  induction s with
  | nil => simp [List.find?, hx]
  | cons r rs ih =>
    cases hr : (r.id == i) with
    | true => simp [List.find?_cons, hr]
    | false => simp [List.find?_cons, hr, ih]

theorem find?_runUpsert_untouched {t0 : Nat} {i : String} :
    ∀ {f : List FeedRec} {s : List Row},
      (∀ q ∈ f, recValid q = true → q.id ≠ some i) →
      (runUpsert t0 s f).find? (fun x => x.id == i) =
        s.find? (fun x => x.id == i) := by
  intro f
  induction f with
  | nil => intro s _; rfl
  | cons q f ih =>
    intro s hno
    have hstep : (applyRec t0 s q).find? (fun x => x.id == i) =
        s.find? (fun x => x.id == i) := by
      by_cases hval : recValid q = true
      · have hne := hno q (List.mem_cons_self q f) hval
        rw [recValid] at hval
        simp only [Bool.and_eq_true, Option.isSome_iff_exists] at hval
        obtain ⟨⟨⟨⟨⟨j, h1⟩, u, h2⟩, nm, h3⟩, t, h4⟩, v, h5⟩ := hval
        have hji : ¬ j = i := fun hc => hne (by rw [h1, hc])
        rw [applyRec_valid h1 h2 h3 h4 h5]
        by_cases hpres : hasId s j = true
        · rw [if_pos hpres]
          exact find?_replaceFirst_ne (fun _ => rfl) hji
        · rw [if_neg hpres]
          apply find?_append_singleton_ne
          simp [insRow]
          exact hji
      · rw [applyRec_invalid (Bool.not_eq_true _ ▸ hval)]
    calc (runUpsert t0 (applyRec t0 s q) f).find? (fun x => x.id == i)
        = (applyRec t0 s q).find? (fun x => x.id == i) :=
          ih (fun q' hq' => hno q' (List.mem_cons_of_mem q hq'))
      _ = s.find? (fun x => x.id == i) := hstep

theorem replaceFirst_fix {s : List Row} {i : String} {w : Row}
    {f : Row → Row} (hfind : s.find? (fun x => x.id == i) = some w)
    (hfix : f w = w) : replaceFirst s i f = s := by
  induction s with
  | nil => rfl
  | cons r rs ih =>
    cases hr : (r.id == i) with
    | true =>
      rw [List.find?_cons, hr] at hfind
      have hw : w = r := by simpa using hfind.symm
      subst hw
      simp [replaceFirst, hr, hfix]
    | false =>
      rw [List.find?_cons, hr] at hfind
      simp [replaceFirst, hr, ih hfind]

theorem updRowP_idem {u nm t : String} {v : Int} {r : FeedRec} {w : Row} :
    updRowP u nm t v r (updRowP u nm t v r w) = updRowP u nm t v r w := rfl

theorem updRowP_congr {u nm t : String} {v : Int} {r : FeedRec}
    {w w' : Row} (hid : w.id = w'.id) (hcr : w.created_at = w'.created_at)
    (hup : w.updated_at = w'.updated_at) :
    updRowP u nm t v r w = updRowP u nm t v r w' := by
  cases w
  cases w'
  simp only [updRowP] at *
  simp_all

theorem find?_append_singleton_self {s : List Row} {x : Row} {i : String}
    (hnone : s.find? (fun r => r.id == i) = none)
    (hx : (x.id == i) = true) :
    (s ++ [x]).find? (fun r => r.id == i) = some x := by
  induction s with
  | nil => simp [List.find?, hx]
  | cons r rs ih =>
    rw [List.find?_cons] at hnone
    cases hr : (r.id == i) with
    | true => rw [hr] at hnone; simp at hnone
    | false =>
      rw [hr] at hnone
      simpa [List.find?_cons, hr] using ih hnone

theorem applyRec_sets {t0 : Nat} {s : List Row} {r : FeedRec}
    {i u nm t : String} {v : Int} (h1 : r.id = some i) (h2 : r.url = some u)
    (h3 : r.name = some nm) (h4 : r.title = some t) (h5 : r.views = some v) :
    ∃ w, (applyRec t0 s r).find? (fun x => x.id == i) = some w ∧
      updRowP u nm t v r w = w := by
  rw [applyRec_valid h1 h2 h3 h4 h5]
  by_cases hpres : hasId s i = true
  · rw [if_pos hpres]
    rw [hasId_eq_isSome, Option.isSome_iff_exists] at hpres
    obtain ⟨w0, hw0⟩ := hpres
    exact ⟨updRowP u nm t v r w0,
      find?_replaceFirst_self _ hw0 rfl, updRowP_idem⟩
  · rw [if_neg hpres]
    refine ⟨insRow t0 i u nm t v r, ?_, rfl⟩
    have hnone : s.find? (fun x => x.id == i) = none := by
      rw [hasId_eq_isSome] at hpres
      exact Option.not_isSome_iff_eq_none.mp hpres
    exact find?_append_singleton_self hnone (by simp [insRow])

theorem exists_decomp {s : List Row} {i : String}
    (h : hasId s i = true) :
    ∃ pre w post, s = pre ++ w :: post ∧ (∀ x ∈ pre, ¬ x.id = i) ∧
      w.id = i := by
  induction s with
  | nil => simp [hasId] at h
  | cons r rs ih =>
    cases hr : (r.id == i) with
    | true =>
      exact ⟨[], r, rs, rfl, by simp, by simpa using hr⟩
    | false =>
      have h' : hasId rs i = true := by
        rw [hasId, List.any_cons, hr, Bool.false_or] at h
        exact h
      obtain ⟨pre, w, post, heq, hpre, hw⟩ := ih h'
      refine ⟨r :: pre, w, post, by rw [heq]; rfl, ?_, hw⟩
      intro x hx
      rcases List.mem_cons.mp hx with rfl | hx
      · simpa using hr
      · exact hpre x hx

theorem replaceFirst_decomp {pre : List Row} {w : Row} {post : List Row}
    {i : String} {f : Row → Row} (hpre : ∀ x ∈ pre, ¬ x.id = i)
    (hw : w.id = i) :
    replaceFirst (pre ++ w :: post) i f = pre ++ f w :: post := by
  induction pre with
  | nil =>
    simp only [List.nil_append, replaceFirst]
    rw [if_pos (by simpa using hw)]
  | cons r pre ih =>
    have hr : (r.id == i) = false := by
      simpa using hpre r (List.mem_cons_self r pre)
    simp only [List.cons_append, replaceFirst, hr, Bool.false_eq_true,
      if_false, List.cons.injEq, true_and]
    exact ih (fun x hx => hpre x (List.mem_cons_of_mem r hx))

theorem replaceFirst_append_cons {pre : List Row} {w : Row}
    {post : List Row} {j : String} {f : Row → Row} (hw : ¬ w.id = j) :
    replaceFirst (pre ++ w :: post) j f =
      if hasId pre j then replaceFirst pre j f ++ w :: post
      else pre ++ w :: replaceFirst post j f := by
  induction pre with
  | nil =>
    have hwj : (w.id == j) = false := by simpa using hw
    simp [replaceFirst, hasId, hwj]
  | cons r pre ih =>
    cases hr : (r.id == j) with
    | true =>
      simp [replaceFirst, hr, hasId, List.any_cons]
    | false =>
      have hcons : replaceFirst ((r :: pre) ++ w :: post) j f =
          r :: replaceFirst (pre ++ w :: post) j f := by
        rw [List.cons_append]
        simp [replaceFirst, hr]
      have hcons2 : replaceFirst (r :: pre) j f =
          r :: replaceFirst pre j f := by
        simp [replaceFirst, hr]
      have hhas : hasId (r :: pre) j = hasId pre j := by
        simp [hasId, List.any_cons, hr]
      rw [hcons, ih, hhas]
      by_cases hp : hasId pre j = true
      · simp [hp, hcons2]
      · simp [hp]

theorem applyUpd_agree_eq {i : String} {s s' : List Row} {q : FeedRec}
    {u nm t : String} {v : Int} (hA : AgreeExc i s s') (h1 : q.id = some i)
    (h2 : q.url = some u) (h3 : q.name = some nm) (h4 : q.title = some t)
    (h5 : q.views = some v) : applyUpd s q = applyUpd s' q := by
  rcases hA with rfl | ⟨pre, w, w', post, rfl, rfl, hpre, hw, hw', hcr, hup⟩
  · rfl
  · rw [applyUpd_valid h1 h2 h3 h4 h5, applyUpd_valid h1 h2 h3 h4 h5,
      replaceFirst_decomp hpre hw, replaceFirst_decomp hpre hw',
      updRowP_congr (hw.trans hw'.symm) hcr hup]

theorem applyUpd_agree {i : String} {s s' : List Row} {q : FeedRec}
    (hA : AgreeExc i s s') : AgreeExc i (applyUpd s q) (applyUpd s' q) := by
  rcases hA with rfl | ⟨pre, w, w', post, rfl, rfl, hpre, hw, hw', hcr, hup⟩
  · exact Or.inl rfl
  · by_cases hval : recValid q = true
    · rw [recValid] at hval
      simp only [Bool.and_eq_true, Option.isSome_iff_exists] at hval
      obtain ⟨⟨⟨⟨⟨j, h1⟩, u, h2⟩, nm, h3⟩, t, h4⟩, v, h5⟩ := hval
      by_cases hji : j = i
      · subst hji
        exact Or.inl (applyUpd_agree_eq
          (Or.inr ⟨pre, w, w', post, rfl, rfl, hpre, hw, hw', hcr, hup⟩)
          h1 h2 h3 h4 h5)
      · rw [applyUpd_valid h1 h2 h3 h4 h5, applyUpd_valid h1 h2 h3 h4 h5]
        have hwj : ¬ w.id = j := by rw [hw]; intro hc; exact hji hc.symm
        have hw'j : ¬ w'.id = j := by rw [hw']; intro hc; exact hji hc.symm
        rw [replaceFirst_append_cons hwj, replaceFirst_append_cons hw'j]
        by_cases hp : hasId pre j = true
        · rw [if_pos hp, if_pos hp]
          refine Or.inr ⟨replaceFirst pre j (updRowP u nm t v q), w, w',
            post, rfl, rfl, ?_, hw, hw', hcr, hup⟩
          intro x hx
          rcases mem_replaceFirst hx with hx | ⟨w2, hw2, _, rfl⟩
          · exact hpre x hx
          · exact hpre w2 hw2
        · rw [if_neg hp, if_neg hp]
          exact Or.inr ⟨pre, w, w', replaceFirst post j (updRowP u nm t v q),
            rfl, rfl, hpre, hw, hw', hcr, hup⟩
    · rw [applyUpd_invalid (Bool.not_eq_true _ ▸ hval),
        applyUpd_invalid (Bool.not_eq_true _ ▸ hval)]
      exact Or.inr ⟨pre, w, w', post, rfl, rfl, hpre, hw, hw', hcr, hup⟩

theorem foldl_applyUpd_agree {i : String} :
    ∀ {f : List FeedRec} {s s' : List Row}, AgreeExc i s s' →
      (∃ q ∈ f, recValid q = true ∧ q.id = some i) →
      List.foldl applyUpd s f = List.foldl applyUpd s' f := by
  intro f
  induction f with
  | nil =>
    intro s s' _ hex
    obtain ⟨q, hq, _⟩ := hex
    simp at hq
  | cons q0 f ih =>
    intro s s' hA hex
    by_cases hq0 : recValid q0 = true ∧ q0.id = some i
    · obtain ⟨hv0, hid0⟩ := hq0
      rw [recValid] at hv0
      simp only [Bool.and_eq_true, Option.isSome_iff_exists] at hv0
      obtain ⟨⟨⟨⟨_, u, h2⟩, nm, h3⟩, t, h4⟩, v, h5⟩ := hv0
      rw [List.foldl_cons, List.foldl_cons,
        applyUpd_agree_eq hA hid0 h2 h3 h4 h5]
    · have hA' : AgreeExc i (applyUpd s q0) (applyUpd s' q0) :=
        applyUpd_agree hA
      obtain ⟨q, hq, hqv, hqi⟩ := hex
      rcases List.mem_cons.mp hq with rfl | hq'
      · exact absurd ⟨hqv, hqi⟩ hq0
      · rw [List.foldl_cons, List.foldl_cons]
        exact ih hA' ⟨q, hq', hqv, hqi⟩

theorem hasId_runUpsert_self_all {t0 : Nat} :
    ∀ {f : List FeedRec} {s : List Row} {q : FeedRec} {i u nm t : String}
      {v : Int}, q ∈ f → q.id = some i → q.url = some u →
      q.name = some nm → q.title = some t → q.views = some v →
      hasId (runUpsert t0 s f) i = true := by
  intro f
  induction f with
  | nil =>
    intro s q i u nm t v hq
    simp at hq
  | cons r f ih =>
    intro s q i u nm t v hq h1 h2 h3 h4 h5
    rcases List.mem_cons.mp hq with rfl | hq'
    · show hasId (runUpsert t0 (applyRec t0 s q) f) i = true
      exact hasId_runUpsert_mono (hasId_applyRec_self h1 h2 h3 h4 h5)
    · show hasId (runUpsert t0 (applyRec t0 s r) f) i = true
      exact ih hq' h1 h2 h3 h4 h5

theorem runUpsert_eq_foldl_applyUpd {t1 : Nat} :
    ∀ {f : List FeedRec} {s : List Row},
      (∀ q ∈ f, ∀ i u nm t v, q.id = some i → q.url = some u →
        q.name = some nm → q.title = some t → q.views = some v →
        hasId s i = true) →
      runUpsert t1 s f = List.foldl applyUpd s f := by
  intro f
  induction f with
  | nil => intro s _; rfl
  | cons q f ih =>
    intro s hpres
    have htail : ∀ q' ∈ f, ∀ i u nm t v, q'.id = some i →
        q'.url = some u → q'.name = some nm → q'.title = some t →
        q'.views = some v → hasId (applyUpd s q) i = true :=
      fun q' hq' i u nm t v h1 h2 h3 h4 h5 =>
        hasId_applyUpd_mono
          (hpres q' (List.mem_cons_of_mem q hq') i u nm t v h1 h2 h3 h4 h5)
    by_cases hval : recValid q = true
    · rw [recValid] at hval
      simp only [Bool.and_eq_true, Option.isSome_iff_exists] at hval
      obtain ⟨⟨⟨⟨⟨i, h1⟩, u, h2⟩, nm, h3⟩, t, h4⟩, v, h5⟩ := hval
      have hstep : applyRec t1 s q = applyUpd s q :=
        applyRec_eq_applyUpd h1 h2 h3 h4 h5
          (hpres q (List.mem_cons_self q f) i u nm t v h1 h2 h3 h4 h5)
      show runUpsert t1 (applyRec t1 s q) f = List.foldl applyUpd (applyUpd s q) f
      rw [hstep]
      exact ih htail
    · have hinv := Bool.not_eq_true _ ▸ hval
      show runUpsert t1 (applyRec t1 s q) f = List.foldl applyUpd (applyUpd s q) f
      rw [applyRec_invalid hinv, applyUpd_invalid hinv]
      exact ih (fun q' hq' i u nm t v h1 h2 h3 h4 h5 =>
        hpres q' (List.mem_cons_of_mem q hq') i u nm t v h1 h2 h3 h4 h5)

theorem run_idem_aux :
    ∀ (f : List FeedRec) (t0 : Nat) (s : List Row),
      List.foldl applyUpd (runUpsert t0 s f) f = runUpsert t0 s f := by
  intro f
  induction f with
  | nil => intro t0 s; rfl
  | cons r f ih =>
    intro t0 s
    show List.foldl applyUpd
        (applyUpd (runUpsert t0 (applyRec t0 s r) f) r) f =
      runUpsert t0 (applyRec t0 s r) f
    have hIH : List.foldl applyUpd (runUpsert t0 (applyRec t0 s r) f) f =
        runUpsert t0 (applyRec t0 s r) f := ih t0 (applyRec t0 s r)
    by_cases hval : recValid r = true
    · rw [recValid] at hval
      simp only [Bool.and_eq_true, Option.isSome_iff_exists] at hval
      obtain ⟨⟨⟨⟨⟨i, h1⟩, u, h2⟩, nm, h3⟩, t, h4⟩, v, h5⟩ := hval
      rw [applyUpd_valid h1 h2 h3 h4 h5]
      by_cases hex : ∃ q ∈ f, recValid q = true ∧ q.id = some i
      · have hpres : hasId (runUpsert t0 (applyRec t0 s r) f) i = true :=
          hasId_runUpsert_mono (hasId_applyRec_self h1 h2 h3 h4 h5)
        obtain ⟨pre, w, post, hseq, hpre, hw⟩ := exists_decomp hpres
        have hAg : AgreeExc i
            (replaceFirst (runUpsert t0 (applyRec t0 s r) f) i
              (updRowP u nm t v r))
            (runUpsert t0 (applyRec t0 s r) f) := by
          rw [hseq, replaceFirst_decomp hpre hw]
          exact Or.inr ⟨pre, updRowP u nm t v r w, w, post, rfl, rfl,
            hpre, hw, hw, rfl, rfl⟩
        rw [foldl_applyUpd_agree hAg hex, hIH]
      · have hno : ∀ q ∈ f, recValid q = true → q.id ≠ some i := by
          intro q hq hqv hqi
          exact hex ⟨q, hq, hqv, hqi⟩
        obtain ⟨w, hwfind, hwfix⟩ :=
          @applyRec_sets t0 s r i u nm t v h1 h2 h3 h4 h5
        have hwfind' : (runUpsert t0 (applyRec t0 s r) f).find?
            (fun x => x.id == i) = some w := by
          rw [find?_runUpsert_untouched hno]
          exact hwfind
        rw [replaceFirst_fix hwfind' hwfix, hIH]
    · have hinv := Bool.not_eq_true _ ▸ hval
      rw [applyUpd_invalid hinv, hIH]

theorem runUpsert_idem (t0 t1 : Nat) (s : List Row) (feed : List FeedRec) :
    runUpsert t1 (runUpsert t0 s feed) feed = runUpsert t0 s feed := by
  rw [runUpsert_eq_foldl_applyUpd
    (fun q hq i u nm t v h1 h2 h3 h4 h5 =>
      hasId_runUpsert_self_all hq h1 h2 h3 h4 h5)]
  exact run_idem_aux feed t0 s

/-- C6: running the whole ingestion upsert twice against the same feed,
with both commits succeeding, leaves exactly the store of a single run:
on the second run every valid record takes the `ON DUPLICATE KEY UPDATE`
arm and rewrites the same nine columns with the same values (and invalid
records are skipped both times), so the second run changes no row,
whatever the engine's insert-time timestamps `t0`, `t1` were. -/
theorem upsert_idempotent (t0 t1 : Nat) (s : List Row)
    (feed : List FeedRec) :
    upsert_videos t1 true (upsert_videos t0 true s feed).1 feed =
      upsert_videos t0 true s feed := by
  show (runUpsert t1 (runUpsert t0 s feed) feed, 0) =
    (runUpsert t0 s feed, 0)
  rw [runUpsert_idem]
